import Mathlib

/-!
Verification of the in-memory state calculator
(`execution/executor/src/types/in_memory_state_calculator_v2.rs`) against its
natural-language specification.

The Rust source is shallowly embedded: per-transaction sharded write sets,
the two-way range merger, the usage accountant, the checkpoint builder and the
orchestrator `calculate_impl` are translated into executable Lean functions.
Rust `HashMap`s are modelled as association lists whose insert replaces the
existing binding for a key (last writer wins); `DashMap` read caches are
association lists as well.  Panics (`assert!`, `expect`, slice-bound and
integer-cast failures) are modelled as `Except` errors so that every claim can
be stated over total functions.  Machine-integer casts are made explicit:
the final `as usize` cast of a signed delta sum reduces modulo 2^64.

Collaborator types that live outside the two source files of this repository
(StateKey, StateValue, StateStorageUsage, the sparse Merkle tree, the
transaction batch) are modelled from the spec; each such definition carries a
doc comment saying so.
-/

set_option maxHeartbeats 1000000

/-- Modelled from the spec (the `state_key` module is not in src/):
an opaque, hashable identifier of a storage slot, exposing `size` (bytes),
a stable `get_shard_id ∈ [0,16)` and a cryptographic `hash`.  The shard
function is realized as the low bits of the key's stable data, as the spec
suggests ("a stable hash's low bits"). -/
structure StateKey where
  data : Nat
  size : Nat
deriving DecidableEq, Inhabited

def StateKey.get_shard_id (k : StateKey) : Fin 16 :=
  ⟨k.data % 16, Nat.mod_lt _ (by decide)⟩

def StateKey.hash (k : StateKey) : Nat := Nat.pair k.data k.size

/-- Modelled from the spec (the `state_value` module is not in src/):
an opaque stored value exposing `size` (bytes). `none` denotes deletion. -/
structure StateValue where
  data : Nat
  size : Nat
deriving DecidableEq, Inhabited

/-- Modelled from the spec (the `state_storage_usage` module is not in src/):
a pair `(items, bytes)` or the distinguished untracked state. -/
inductive StateStorageUsage where
  | Untracked : StateStorageUsage
  | Tracked (items : Nat) (bytes : Nat) : StateStorageUsage
deriving DecidableEq, Inhabited

def StateStorageUsage.new (items bytes : Nat) : StateStorageUsage :=
  .Tracked items bytes

def StateStorageUsage.new_untracked : StateStorageUsage := .Untracked

def StateStorageUsage.is_untracked : StateStorageUsage → Bool
  | .Untracked => true
  | .Tracked _ _ => false

def StateStorageUsage.items : StateStorageUsage → Nat
  | .Untracked => 0
  | .Tracked items _ => items

def StateStorageUsage.bytes : StateStorageUsage → Nat
  | .Untracked => 0
  | .Tracked _ bytes => bytes

/-- Modelled from the spec: a `WriteOp` converts to `Option StateValue` via
`as_state_value` — `none` for deletion, `some` for creation/overwrite. -/
abbrev WriteOp : Type := Option StateValue

def WriteOp.as_state_value (w : WriteOp) : Option StateValue := w

/-- Modelled from the spec: an ordered sequence of `(StateKey, WriteOp)` pairs
produced by one transaction. -/
abbrev WriteSet : Type := List (StateKey × WriteOp)

/-- One shard of a `ShardedStateUpdates`: the embedding of a Rust
`HashMap<StateKey, Option<StateValue>>` as an association list without
duplicate keys (maintained by `insertKV`). -/
abbrev ShardUpdates : Type := List (StateKey × Option StateValue)

def containsKey (m : ShardUpdates) (k : StateKey) : Bool :=
  m.any (fun p => p.1 == k)

def getKV (m : ShardUpdates) (k : StateKey) : Option (Option StateValue) :=
  (m.find? (fun p => p.1 == k)).map Prod.snd

/-- `HashMap::insert`: replace the binding if the key is present, else append. -/
def insertKV : ShardUpdates → StateKey → Option StateValue → ShardUpdates
  | [], k, v => [(k, v)]
  | p :: t, k, v => if p.1 = k then (k, v) :: t else p :: insertKV t k v

/-- `HashMap::extend`: insert every pair of `l` in order. -/
def insertAll (m : ShardUpdates) (l : List (StateKey × Option StateValue)) :
    ShardUpdates :=
  l.foldl (fun acc p => insertKV acc p.1 p.2) m

/-- `ShardedStateUpdates`: fixed array of 16 maps `StateKey → Option StateValue`
(`types/src/state_store/mod.rs`). -/
abbrev ShardedStateUpdates : Type := Fin 16 → ShardUpdates

/-- `create_empty_sharded_state_updates` (`types/src/state_store/mod.rs`). -/
def create_empty_sharded_state_updates : ShardedStateUpdates := fun _ => []

/-- Whether the sharded aggregate contains `key`, looked up in the key's own
shard — the form in which `calculate_usage` consults the post-checkpoint
aggregate. -/
def ShardedStateUpdates.contains_key (u : ShardedStateUpdates)
    (k : StateKey) : Bool :=
  containsKey (u k.get_shard_id) k

/-- Update a single shard of a sharded aggregate. -/
def updateShard (u : ShardedStateUpdates) (i : Fin 16)
    (f : ShardUpdates → ShardUpdates) : ShardedStateUpdates :=
  fun j => if j = i then f (u j) else u j

/-- Shard-splitter `get_sharded_state_updates`: for each write set (in batch
order) build a 16-way bucket array; each `(key, op)` goes to bucket
`key.get_shard_id` as `(key, op.as_state_value)`, later writes superseding
earlier ones. -/
def get_sharded_state_updates (write_sets : List WriteSet) :
    List ShardedStateUpdates :=
  write_sets.map (fun ws =>
    ws.foldl
      (fun updates p =>
        updateShard updates p.1.get_shard_id
          (fun m => insertKV m p.1 p.2.as_state_value))
      create_empty_sharded_state_updates)

/-- Range-merger `calculate_updates`: shard `i` of the aggregate is the
in-order union of shard `i` of every element, later entries overwriting
earlier ones for the same key. -/
def calculate_updates (state_updates_vec : List ShardedStateUpdates) :
    ShardedStateUpdates :=
  fun i =>
    state_updates_vec.foldl (fun acc su => insertAll acc (su i)) []

/-- Specification-side description of "last writer wins": the write recorded
for key `k` in shard `i` by the batch `vec`, i.e. the value written by the
last transaction whose shard `i` contains `k`. -/
def lastWrittenValue (vec : List ShardedStateUpdates) (i : Fin 16)
    (k : StateKey) : Option (Option StateValue) :=
  (vec.filterMap (fun su => getKV (su i) k)).getLast?

/-- Failure modes of the calculation.  `ensure!`/`bail!` sites keep one
constructor each; panics (`assert!`, `expect`, slice-bound violations) are
modelled as errors too so that the embedding stays total. -/
inductive CalcErr where
  /-- ensure! "Empty block is not allowed." -/
  | emptyBlock
  /-- ensure! "Block base state is not a checkpoint." -/
  | baseNotCheckpoint
  /-- ensure! "Base state is corrupted, updates_since_base is not empty". -/
  | updatesSinceBaseNotEmpty
  /-- ensure! "Checkpoint is allowed iff it's the last txn in the block." -/
  | checkpointNotLast
  /-- ensure! "Block must have the checkpoint at the end." -/
  | blockMustEndCheckpoint
  /-- ensure! "Bad number of known hashes." -/
  | hashCountMismatch
  /-- ensure! "Last checkpoint not expected." -/
  | checkpointHashMismatch
  /-- panic: `state_cache.get(k).expect("Must cache read")`. -/
  | missingRead
  /-- panic: `assert!(frozen_base.smt.is_the_same(&parent_state.current))`. -/
  | frozenBaseMismatch
  /-- panic: slicing `state_updates_vec[..=index]` out of bounds. -/
  | indexOutOfBounds
deriving DecidableEq, Inhabited

/-- Which errors the spec classifies as *InvalidBlock* (block structural
invariants: empty batch, parent not a checkpoint, corrupted
`updates_since_base`, checkpoint position rule). -/
def CalcErr.isInvalidBlock : CalcErr → Bool
  | .emptyBlock | .baseNotCheckpoint | .updatesSinceBaseNotEmpty
  | .checkpointNotLast | .blockMustEndCheckpoint => true
  | _ => false

/-- One shard of the pre-execution read cache: the embedding of
`DashMap<StateKey, (Option<Version>, Option<StateValue>)>`. -/
abbrev ShardCache : Type := List (StateKey × (Option Nat × Option StateValue))

def cacheGet (c : ShardCache) (k : StateKey) :
    Option (Option Nat × Option StateValue) :=
  (c.find? (fun p => p.1 == k)).map Prod.snd

/-- Modelled from the spec (`ShardedStateCache` lives in
`aptos_storage_interface`, not in src/): 16 concurrent maps
`StateKey → (Option Version, Option StateValue)` recording every key read
during execution. -/
abbrev ShardedStateCache : Type := Fin 16 → ShardCache

def ShardedStateCache.shard (c : ShardedStateCache) (i : Fin 16) : ShardCache :=
  c i

/-- `add_to_delta`: account one walked update `(k, v)` into the running signed
`(items_delta, bytes_delta)` pair.  The `expect("Must cache read")` panic is
modelled as the `missingRead` error. -/
def add_to_delta (k : StateKey) (v : Option StateValue) (state_cache : ShardCache)
    (deltas : Int × Int) : Except CalcErr (Int × Int) :=
  let key_size := k.size
  let d :=
    match v with
    | some value => (deltas.1 + 1, deltas.2 + ((key_size + value.size : Nat) : Int))
    | none => deltas
  match cacheGet state_cache k with
  | none => .error .missingRead
  | some (_, some old_v) => .ok (d.1 - 1, d.2 - ((key_size + old_v.size : Nat) : Int))
  | some (_, none) => .ok d

/-- Per-shard walk of `calculate_usage`: the source iterates
`before.iter().chain(after.iter()).enumerate()` and skips an entry when its
index is below `before.len()` (i.e. it comes from the pre-checkpoint half) and
`after` also contains the key; positionally that is exactly: walk `before`
skipping keys present in `after`, then walk all of `after`. -/
def shardUsageDelta (state_cache : ShardCache) (before after : ShardUpdates) :
    Except CalcErr (Int × Int) :=
  match before.foldlM
      (fun acc e =>
        if containsKey after e.1 then pure acc
        else add_to_delta e.1 e.2 state_cache acc)
      ((0 : Int), (0 : Int)) with
  | .error e => .error e
  | .ok acc =>
      after.foldlM (fun acc e => add_to_delta e.1 e.2 state_cache acc) acc

/-- One step of the per-shard fold of `calculate_usage` (the `zip_eq ... map
... reduce` of the source, sequentialized over the 16 shard indices). -/
def usage_fold_step (sharded_state_cache : ShardedStateCache)
    (updates : ShardedStateUpdates × ShardedStateUpdates)
    (acc : Int × Int) (i : Fin 16) : Except CalcErr (Int × Int) :=
  match shardUsageDelta (sharded_state_cache.shard i)
      (updates.1 i) (updates.2 i) with
  | .error e => .error e
  | .ok d => .ok (acc.1 + d.1, acc.2 + d.2)

/-- `calculate_usage`: short-circuit on untracked parent usage, otherwise sum
the per-shard signed deltas and rebuild the usage.  The Rust casts
`(old as i64 + delta) as usize` reinterpret a (possibly negative) signed
64-bit value as unsigned, i.e. reduce it modulo 2^64. -/
def calculate_usage (old_usage : StateStorageUsage)
    (sharded_state_cache : ShardedStateCache)
    (updates : ShardedStateUpdates × ShardedStateUpdates) :
    Except CalcErr StateStorageUsage :=
  if old_usage.is_untracked then .ok StateStorageUsage.new_untracked
  else
    match (List.finRange 16).foldlM
        (usage_fold_step sharded_state_cache updates)
        ((0 : Int), (0 : Int)) with
    | .error e => .error e
    | .ok deltas =>
        .ok (StateStorageUsage.new
          ((((old_usage.items : Int) + deltas.1) % ((2 : Int) ^ 64)).toNat)
          ((((old_usage.bytes : Int) + deltas.2) % ((2 : Int) ^ 64)).toNat))

/-- Modelled from the spec (the sparse Merkle tree lives in
`aptos_scratchpad`, not in src/): a persistent authenticated map keyed by
`hash(StateKey)` carrying a `usage`.  The map content is an association list
of `(key hash, Option StateValue)` pairs; `batch_update` applies updates in
order, replacing the binding of a present key hash and appending fresh ones.
The root hash is abstracted collision-freely as the map content itself
(two trees have equal root hashes iff their contents are equal); `usage` is
metadata and does not enter the hash. -/
structure SparseMerkleTree where
  entries : List (Nat × Option StateValue)
  usage : StateStorageUsage
deriving DecidableEq, Inhabited

/-- Root-hash values, abstracted as the committed content (see
`SparseMerkleTree`). -/
abbrev HashValue : Type := List (Nat × Option StateValue)

def smtInsert (entries : List (Nat × Option StateValue)) (h : Nat)
    (v : Option StateValue) : List (Nat × Option StateValue) :=
  if entries.any (fun p => p.1 == h) then
    entries.map (fun p => if p.1 = h then (h, v) else p)
  else entries ++ [(h, v)]

/-- Modelled from the spec: `batch_update(updates, usage, proof_reader)`
returns a new tree sharing structure with the old, carrying the supplied
usage.  Proof reading is in-memory for this call, so the update is total. -/
def SparseMerkleTree.batch_update (t : SparseMerkleTree)
    (smt_updates : List (Nat × Option StateValue))
    (usage : StateStorageUsage) : SparseMerkleTree :=
  ⟨smt_updates.foldl (fun acc p => smtInsert acc p.1 p.2) t.entries, usage⟩

def SparseMerkleTree.root_hash (t : SparseMerkleTree) : HashValue := t.entries

/-- Modelled from the spec: a frozen handle pins a tree (and the base it was
frozen against) in memory; content-wise it is just the tree. -/
structure FrozenSparseMerkleTree where
  smt : SparseMerkleTree
  base_smt : SparseMerkleTree
deriving DecidableEq, Inhabited

def SparseMerkleTree.freeze (t : SparseMerkleTree) (base : SparseMerkleTree) :
    FrozenSparseMerkleTree :=
  ⟨t, base⟩

def FrozenSparseMerkleTree.root_hash (t : FrozenSparseMerkleTree) : HashValue :=
  t.smt.root_hash

/-- `StateDelta` (from `aptos_storage_interface`, described by the spec's data
model): `(base, base_version, current, current_version, updates_since_base)`. -/
structure StateDelta where
  base : SparseMerkleTree
  base_version : Option Nat
  current : SparseMerkleTree
  current_version : Option Nat
  updates_since_base : ShardedStateUpdates

/-- `StateDelta::new`. -/
def StateDelta.new (base : SparseMerkleTree) (base_version : Option Nat)
    (current : SparseMerkleTree) (current_version : Option Nat)
    (updates_since_base : ShardedStateUpdates) : StateDelta :=
  ⟨base, base_version, current, current_version, updates_since_base⟩

/-- `StateCache` (from `aptos_storage_interface`, described by the spec):
the frozen parent tree, the 16-way read cache, and the proof map (the latter
is consumed only by `batch_update`, which the model makes total, so it is not
carried). -/
structure StateCache where
  frozen_base : FrozenSparseMerkleTree
  sharded_state_cache : ShardedStateCache

/-- `make_checkpoint`: flatten the 16 shard maps (in shard order) into
`(key.hash, value)` pairs and apply them to the base tree with the supplied
usage. -/
def make_checkpoint (latest_checkpoint : FrozenSparseMerkleTree)
    (updates : ShardedStateUpdates) (usage : StateStorageUsage) :
    FrozenSparseMerkleTree :=
  let smt_updates :=
    ((List.finRange 16).map (fun i => updates i)).flatten.map
      (fun p => (p.1.hash, p.2))
  ⟨latest_checkpoint.smt.batch_update smt_updates usage,
   latest_checkpoint.base_smt⟩

/-- Per-shard `extend` of the parent's pending updates with the batch's
(RHS overwrites LHS for duplicate keys) — the `zip_eq ... extend` loop of
`calculate_impl`. -/
def extend_sharded (lhs rhs : ShardedStateUpdates) : ShardedStateUpdates :=
  fun i => insertAll (lhs i) (rhs i)

/-- The split of the merged updates done at the top of `calculate_impl`:
prefix `[0 ..= index]` and suffix `[index+1 ..]` when a last checkpoint index
exists, else an empty prefix and the whole batch as suffix. -/
def splitUpdates (state_updates_vec : List ShardedStateUpdates)
    (last_checkpoint_index : Option Nat) :
    ShardedStateUpdates × ShardedStateUpdates :=
  match last_checkpoint_index with
  | some index =>
      (calculate_updates (state_updates_vec.take (index + 1)),
       calculate_updates (state_updates_vec.drop (index + 1)))
  | none =>
      (create_empty_sharded_state_updates,
       calculate_updates state_updates_vec)

/-- Lines 139–155 of `calculate_impl`: build the checkpoint-hash vector from
the caller-supplied one (or all-`none`), check its length, and reconcile the
entry at the last checkpoint index against the computed root hash. -/
def reconcile_checkpoint_hashes
    (known_state_checkpoints : Option (List (Option HashValue)))
    (num_txns : Nat) (last_checkpoint_index : Option Nat)
    (computed : HashValue) : Except CalcErr (List (Option HashValue)) :=
  let state_checkpoint_hashes :=
    match known_state_checkpoints with
    | none => List.replicate num_txns none
    | some v => v
  if state_checkpoint_hashes.length ≠ num_txns then
    .error .hashCountMismatch
  else
    match last_checkpoint_index with
    | none => .ok state_checkpoint_hashes
    | some index =>
      match state_checkpoint_hashes.getD index none with
      | some h =>
          if h = computed then .ok state_checkpoint_hashes
          else .error .checkpointHashMismatch
      | none => .ok (state_checkpoint_hashes.set index (some computed))

/-- The output record assembled by `calculate_impl`
(`StateCheckpointOutput::new`). -/
structure StateCheckpointOutput where
  parent_state : StateDelta
  result_state : StateDelta
  updates_before_last_checkpoint : Option ShardedStateUpdates
  state_updates_vec : List ShardedStateUpdates
  state_checkpoint_hashes : List (Option HashValue)

/-- `first_version = parent.current_version + 1` (or 0 when absent). -/
def first_version_of (parent_state : StateDelta) : Nat :=
  match parent_state.current_version with
  | none => 0
  | some v => v + 1

/-- The `latest_checkpoint` tree of `calculate_impl`: with a checkpoint index,
the parent's current tree updated with the pre-checkpoint aggregate (its
carried usage is the final usage only when the checkpoint is the last
transaction); without one, the parent's (frozen) base tree. -/
def latest_checkpoint_of (parent_state : StateDelta) (state_cache : StateCache)
    (state_updates_vec : List ShardedStateUpdates)
    (last_checkpoint_index : Option Nat) (usage : StateStorageUsage) :
    FrozenSparseMerkleTree :=
  match last_checkpoint_index with
  | some index =>
      make_checkpoint
        (parent_state.current.freeze state_cache.frozen_base.base_smt)
        (splitUpdates state_updates_vec last_checkpoint_index).1
        (if index = state_updates_vec.length - 1 then usage
         else StateStorageUsage.new_untracked)
  | none => parent_state.base.freeze state_cache.frozen_base.base_smt

/-- The `latest_checkpoint_version` of `calculate_impl`. -/
def latest_checkpoint_version_of (parent_state : StateDelta)
    (last_checkpoint_index : Option Nat) : Option Nat :=
  match last_checkpoint_index with
  | some index => some (first_version_of parent_state + index)
  | none => parent_state.base_version

/-- The `current_tree` computation of `calculate_impl` (lines 157–177 of the
source): reuse the checkpoint tree when the checkpoint is the last
transaction, otherwise require a non-block and apply the post-checkpoint
aggregate on top of the checkpoint tree (or of the parent's current tree when
there is no checkpoint). -/
def current_tree_result_of (parent_state : StateDelta) (state_cache : StateCache)
    (state_updates_vec : List ShardedStateUpdates)
    (last_checkpoint_index : Option Nat) (is_block : Bool)
    (usage : StateStorageUsage) : Except CalcErr SparseMerkleTree :=
  if last_checkpoint_index = some (state_updates_vec.length - 1) then
    .ok (latest_checkpoint_of parent_state state_cache state_updates_vec
      last_checkpoint_index usage).smt
  else if is_block then .error .blockMustEndCheckpoint
  else
    let latest_tree :=
      if last_checkpoint_index.isSome then
        latest_checkpoint_of parent_state state_cache state_updates_vec
          last_checkpoint_index usage
      else parent_state.current.freeze state_cache.frozen_base.base_smt
    .ok (make_checkpoint latest_tree
      (splitUpdates state_updates_vec last_checkpoint_index).2 usage).smt

/-- The `updates_since_latest_checkpoint` of `calculate_impl`: the
post-checkpoint aggregate when a checkpoint exists, else the parent's pending
updates extended with the batch's aggregate. -/
def updates_since_of (parent_state : StateDelta)
    (state_updates_vec : List ShardedStateUpdates)
    (last_checkpoint_index : Option Nat) : ShardedStateUpdates :=
  if last_checkpoint_index.isSome then
    (splitUpdates state_updates_vec last_checkpoint_index).2
  else
    extend_sharded parent_state.updates_since_base
      (splitUpdates state_updates_vec last_checkpoint_index).2

/-- `calculate_impl`, the shared implementation behind both entry points.
Failures are surfaced in source order: the `frozen_base` identity assertion,
the slice bounds of the prefix/suffix split, the usage walk's read-cache
lookups, the known-hash count and checkpoint-hash checks, and finally the
"block must end in a checkpoint" rule. -/
def calculate_impl (parent_state : StateDelta) (state_cache : StateCache)
    (state_updates_vec : List ShardedStateUpdates)
    (last_checkpoint_index : Option Nat) (is_block : Bool)
    (known_state_checkpoints : Option (List (Option HashValue))) :
    Except CalcErr StateCheckpointOutput :=
  if state_cache.frozen_base.smt ≠ parent_state.current then
    .error .frozenBaseMismatch
  else if (match last_checkpoint_index with
      | some index => decide (state_updates_vec.length ≤ index)
      | none => false) then
    .error .indexOutOfBounds
  else
    match calculate_usage parent_state.current.usage
        state_cache.sharded_state_cache
        ((splitUpdates state_updates_vec last_checkpoint_index).1,
         (splitUpdates state_updates_vec last_checkpoint_index).2) with
    | .error e => .error e
    | .ok usage =>
      match reconcile_checkpoint_hashes known_state_checkpoints
          state_updates_vec.length last_checkpoint_index
          (latest_checkpoint_of parent_state state_cache state_updates_vec
            last_checkpoint_index usage).root_hash with
      | .error e => .error e
      | .ok state_checkpoint_hashes =>
        match current_tree_result_of parent_state state_cache state_updates_vec
            last_checkpoint_index is_block usage with
        | .error e => .error e
        | .ok current_tree =>
          let result_state := StateDelta.new
            (latest_checkpoint_of parent_state state_cache state_updates_vec
              last_checkpoint_index usage).smt
            (latest_checkpoint_version_of parent_state last_checkpoint_index)
            current_tree
            (some (first_version_of parent_state + state_updates_vec.length - 1))
            (updates_since_of parent_state state_updates_vec
              last_checkpoint_index)
          .ok ⟨parent_state, result_state,
            last_checkpoint_index.map
              (fun _ => (splitUpdates state_updates_vec last_checkpoint_index).1),
            state_updates_vec, state_checkpoint_hashes⟩

/-- Modelled from the spec (the transaction batch lives in
`aptos_executor_types`, not in src/): one element of `to_commit`, carrying
the transaction's write set and the collaborator-supplied checkpoint
predicate `need_checkpoint(txn, is_reconfig)` folded into a flag. -/
structure TransactionWithOutput where
  write_set : WriteSet
  is_checkpoint : Bool

def need_checkpoint (t : TransactionWithOutput) : Bool := t.is_checkpoint

/-- Modelled from the spec: `get_last_checkpoint_index` — the position of the
last transaction of the batch satisfying the checkpoint predicate, if any. -/
def get_last_checkpoint_index (to_commit : List TransactionWithOutput) :
    Option Nat :=
  ((to_commit.enum.filter (fun p => need_checkpoint p.2)).map Prod.fst).getLast?

/-- `validate_input_for_block`: the four `ensure!`s, in source order.  The
loop's condition `need_checkpoint(txn) ^ (i != num_txns - 1)` holds iff the
predicate agrees with "is the last position". -/
def validate_input_for_block (base : StateDelta)
    (to_commit : List TransactionWithOutput) : Except CalcErr Unit :=
  let num_txns := to_commit.length
  if num_txns = 0 then
    .error .emptyBlock
  else if base.base_version ≠ base.current_version then
    .error .baseNotCheckpoint
  else if ¬ (List.finRange 16).all
      (fun i => (base.updates_since_base i).isEmpty) then
    .error .updatesSinceBaseNotEmpty
  else if ¬ to_commit.enum.all
      (fun p => Bool.xor (need_checkpoint p.2) (p.1 != num_txns - 1)) then
    .error .checkpointNotLast
  else .ok ()

/-- Modelled from the spec: `ExecutionOutput` — the block/chunk flag, the
batch to commit, and the execution-time state cache. -/
structure ExecutionOutput where
  is_block : Bool
  to_commit : List TransactionWithOutput
  state_cache : StateCache

/-- `calculate_for_transactions`: validate block structure when `is_block`,
split the write sets, locate the last checkpoint, and run the shared
implementation. -/
def calculate_for_transactions (execution_output : ExecutionOutput)
    (parent_state : StateDelta)
    (known_state_checkpoints : Option (List (Option HashValue))) :
    Except CalcErr StateCheckpointOutput :=
  match (if execution_output.is_block then
      validate_input_for_block parent_state execution_output.to_commit
    else .ok ()) with
  | .error e => .error e
  | .ok _ =>
    let state_updates_vec := get_sharded_state_updates
      (execution_output.to_commit.map (fun t => t.write_set))
    let last_checkpoint_index :=
      get_last_checkpoint_index execution_output.to_commit
    calculate_impl parent_state execution_output.state_cache state_updates_vec
      last_checkpoint_index execution_output.is_block known_state_checkpoints

/-- `calculate_for_write_sets_after_snapshot`: always a chunk
(`is_block = false`) and never any caller-supplied expected hashes. -/
def calculate_for_write_sets_after_snapshot (parent_state : StateDelta)
    (state_cache : StateCache) (last_checkpoint_index : Option Nat)
    (write_sets : List WriteSet) : Except CalcErr StateCheckpointOutput :=
  calculate_impl parent_state state_cache
    (get_sharded_state_updates write_sets) last_checkpoint_index false none

/-! ### Association-map lemmas -/

def keysOf (m : ShardUpdates) : List StateKey := m.map Prod.fst

theorem keysOf_nil : keysOf [] = [] := rfl

theorem keysOf_cons (p : StateKey × Option StateValue) (t : ShardUpdates) :
    keysOf (p :: t) = p.1 :: keysOf t := rfl

theorem getKV_nil (k : StateKey) : getKV [] k = none := rfl

theorem getKV_cons (p : StateKey × Option StateValue) (t : ShardUpdates)
    (k : StateKey) :
    getKV (p :: t) k = if p.1 = k then some p.2 else getKV t k := by
  by_cases h : p.1 = k <;> simp [getKV, List.find?_cons, h]

theorem getKV_insertKV (m : ShardUpdates) (k : StateKey) (v : Option StateValue)
    (k' : StateKey) :
    getKV (insertKV m k v) k' = if k = k' then some v else getKV m k' := by
  induction m with
  | nil => rw [insertKV, getKV_cons, getKV_nil]
  | cons p t ih =>
      by_cases hp : p.1 = k
      · rw [insertKV, if_pos hp, getKV_cons, getKV_cons]
        by_cases h : k = k'
        · rw [if_pos h, if_pos h]
        · rw [if_neg h, if_neg h, if_neg (hp ▸ h)]
      · rw [insertKV, if_neg hp, getKV_cons, ih, getKV_cons]
        by_cases h : k = k'
        · rw [if_pos h, if_neg (h ▸ hp), if_pos h]
        · rw [if_neg h, if_neg h]

theorem containsKey_eq_isSome_getKV (m : ShardUpdates) (k : StateKey) :
    containsKey m k = (getKV m k).isSome := by
  induction m with
  | nil => rfl
  | cons p t ih =>
      rw [containsKey, List.any_cons, getKV_cons]
      by_cases h : p.1 = k
      · simp [h]
      · rw [if_neg h]
        have hb : (p.1 == k) = false := by simp [h]
        rw [hb, Bool.false_or]
        exact ih

theorem getKV_eq_none_iff (m : ShardUpdates) (k : StateKey) :
    getKV m k = none ↔ k ∉ keysOf m := by
  induction m with
  | nil => simp [getKV_nil, keysOf_nil]
  | cons p t ih =>
      rw [getKV_cons, keysOf_cons]
      by_cases h : p.1 = k
      · simp [h]
      · simp [if_neg h, ih, List.mem_cons, h, Ne.symm h]

theorem getKV_append (l₁ l₂ : ShardUpdates) (k : StateKey) :
    getKV (l₁ ++ l₂) k =
      match getKV l₁ k with
      | some v => some v
      | none => getKV l₂ k := by
  unfold getKV
  rw [List.find?_append]
  cases h : List.find? (fun p => p.1 == k) l₁ <;> simp [Option.or, h]

theorem getKV_reverse (m : ShardUpdates) (k : StateKey)
    (hnd : (keysOf m).Nodup) :
    getKV m.reverse k = getKV m k := by
  induction m with
  | nil => rfl
  | cons p t ih =>
      rw [keysOf_cons, List.nodup_cons] at hnd
      rw [List.reverse_cons, getKV_append, ih hnd.2, getKV_cons]
      by_cases h : p.1 = k
      · have ht : getKV t k = none := (getKV_eq_none_iff t k).mpr (h ▸ hnd.1)
        rw [ht, if_pos h, getKV_cons, if_pos h]
      · cases hg : getKV t k <;> simp [getKV_cons, h, hg, getKV_nil]

/-! ### `insertAll` and `calculate_updates` -/

theorem insertAll_nil (m : ShardUpdates) : insertAll m [] = m := rfl

theorem insertAll_cons (m : ShardUpdates) (p : StateKey × Option StateValue)
    (l : List (StateKey × Option StateValue)) :
    insertAll m (p :: l) = insertAll (insertKV m p.1 p.2) l := rfl

theorem getKV_insertAll (m : ShardUpdates)
    (l : List (StateKey × Option StateValue)) (k : StateKey) :
    getKV (insertAll m l) k =
      match getKV l.reverse k with
      | some v => some v
      | none => getKV m k := by
  induction l generalizing m with
  | nil => rfl
  | cons p t ih =>
      rw [insertAll_cons, ih, List.reverse_cons, getKV_append]
      cases hg : getKV t.reverse k
      · rw [getKV_insertKV, getKV_cons, getKV_nil]
        by_cases h : p.1 = k <;> simp [h]
      · rfl

theorem calculate_updates_nil (i : Fin 16) : calculate_updates [] i = [] := rfl

theorem calculate_updates_concat (vec : List ShardedStateUpdates)
    (su : ShardedStateUpdates) (i : Fin 16) :
    calculate_updates (vec ++ [su]) i =
      insertAll (calculate_updates vec i) (su i) := by
  unfold calculate_updates
  rw [List.foldl_append]
  rfl

/-- Per-shard "last writer wins" for the range-merger, on batches whose
per-transaction shard maps have no duplicate keys (as the shard-splitter
guarantees). -/
theorem getKV_calculate_updates (vec : List ShardedStateUpdates) (i : Fin 16)
    (k : StateKey) (hnd : ∀ su ∈ vec, (keysOf (su i)).Nodup) :
    getKV (calculate_updates vec i) k = lastWrittenValue vec i k := by
  induction vec using List.reverseRecOn with
  | nil => rfl
  | append_singleton vs su ih =>
      rw [calculate_updates_concat, getKV_insertAll,
          getKV_reverse _ _ (hnd su (by simp)),
          lastWrittenValue, List.filterMap_append]
      have ih' := ih (fun s hs => hnd s (List.mem_append_left _ hs))
      cases hg : getKV (su i) k
      · simpa [hg, lastWrittenValue] using ih'
      · simp [hg, List.getLast?_concat]

/-! ### Keys stay duplicate-free -/

theorem mem_keysOf_insertKV (m : ShardUpdates) (k : StateKey)
    (v : Option StateValue) (k' : StateKey)
    (h : k' ∈ keysOf (insertKV m k v)) : k' ∈ keysOf m ∨ k' = k := by
  induction m with
  | nil =>
      rcases (by simpa [insertKV, keysOf] using h) with h'
      exact Or.inr h'
  | cons p t ih =>
      by_cases hp : p.1 = k
      · rw [insertKV, if_pos hp, keysOf_cons] at h
        rcases List.mem_cons.mp h with h' | h'
        · exact Or.inr h'
        · exact Or.inl (List.mem_cons.mpr (Or.inr (by simpa [keysOf] using h')))
      · rw [insertKV, if_neg hp, keysOf_cons] at h
        rcases List.mem_cons.mp h with h' | h'
        · exact Or.inl (by simp [keysOf_cons, h'])
        · rcases ih h' with h'' | h''
          · exact Or.inl (by simp [keysOf_cons, h''])
          · exact Or.inr h''

theorem nodup_keysOf_insertKV (m : ShardUpdates) (k : StateKey)
    (v : Option StateValue) (hnd : (keysOf m).Nodup) :
    (keysOf (insertKV m k v)).Nodup := by
  induction m with
  | nil => simp [insertKV, keysOf]
  | cons p t ih =>
      rw [keysOf_cons, List.nodup_cons] at hnd
      by_cases hp : p.1 = k
      · rw [insertKV, if_pos hp, keysOf_cons, List.nodup_cons]
        exact ⟨hp ▸ hnd.1, hnd.2⟩
      · rw [insertKV, if_neg hp, keysOf_cons, List.nodup_cons]
        refine ⟨fun hmem => ?_, ih hnd.2⟩
        rcases mem_keysOf_insertKV t k v p.1 hmem with h' | h'
        · exact hnd.1 h'
        · exact hp h'

theorem nodup_keysOf_insertAll (m : ShardUpdates)
    (l : List (StateKey × Option StateValue)) (hnd : (keysOf m).Nodup) :
    (keysOf (insertAll m l)).Nodup := by
  induction l generalizing m with
  | nil => exact hnd
  | cons p t ih => exact ih _ (nodup_keysOf_insertKV m p.1 p.2 hnd)

theorem nodup_keysOf_calculate_updates (vec : List ShardedStateUpdates)
    (i : Fin 16) : (keysOf (calculate_updates vec i)).Nodup := by
  induction vec using List.reverseRecOn with
  | nil => simp [calculate_updates_nil, keysOf_nil]
  | append_singleton vs su ih =>
      rw [calculate_updates_concat]
      exact nodup_keysOf_insertAll _ _ ih

/-- The per-transaction maps built by the shard-splitter are duplicate-free
in every shard. -/
theorem nodup_keysOf_get_sharded_state_updates (write_sets : List WriteSet)
    (su : ShardedStateUpdates) (hsu : su ∈ get_sharded_state_updates write_sets)
    (i : Fin 16) : (keysOf (su i)).Nodup := by
  rw [get_sharded_state_updates, List.mem_map] at hsu
  obtain ⟨ws, -, rfl⟩ := hsu
  suffices h : ∀ (l : List (StateKey × WriteOp)) (acc : ShardedStateUpdates),
      (∀ j, (keysOf (acc j)).Nodup) →
      ∀ j, (keysOf (l.foldl
        (fun updates p => updateShard updates p.1.get_shard_id
          (fun m => insertKV m p.1 p.2.as_state_value)) acc j)).Nodup by
    exact h ws create_empty_sharded_state_updates
      (fun _ => by simp [create_empty_sharded_state_updates, keysOf_nil]) i
  intro l
  induction l with
  | nil => intro acc hacc j; exact hacc j
  | cons p t ih =>
      intro acc hacc j
      refine ih _ (fun j' => ?_) j
      simp only [updateShard]
      by_cases hj : j' = p.1.get_shard_id
      · rw [if_pos hj]
        exact nodup_keysOf_insertKV _ _ _ (hacc j')
      · rw [if_neg hj]
        exact hacc j'

/-! ### Shard consistency -/

/-- Every key stored in shard `i` has `get_shard_id = i`. -/
def shardConsistent (u : ShardedStateUpdates) : Prop :=
  ∀ i : Fin 16, ∀ p ∈ u i, p.1.get_shard_id = i

instance (u : ShardedStateUpdates) : Decidable (shardConsistent u) := by
  unfold shardConsistent
  exact inferInstance

theorem mem_insertKV (m : ShardUpdates) (k : StateKey) (v : Option StateValue)
    (p : StateKey × Option StateValue) (h : p ∈ insertKV m k v) :
    p ∈ m ∨ p = (k, v) := by
  induction m with
  | nil => simpa [insertKV] using h
  | cons q t ih =>
      by_cases hq : q.1 = k
      · rw [insertKV, if_pos hq] at h
        rcases List.mem_cons.mp h with h' | h'
        · exact Or.inr h'
        · exact Or.inl (List.mem_cons.mpr (Or.inr h'))
      · rw [insertKV, if_neg hq] at h
        rcases List.mem_cons.mp h with h' | h'
        · exact Or.inl (List.mem_cons.mpr (Or.inl h'))
        · rcases ih h' with h'' | h''
          · exact Or.inl (List.mem_cons.mpr (Or.inr h''))
          · exact Or.inr h''

theorem mem_insertAll (m : ShardUpdates)
    (l : List (StateKey × Option StateValue))
    (p : StateKey × Option StateValue) (h : p ∈ insertAll m l) :
    p ∈ m ∨ p ∈ l := by
  induction l generalizing m with
  | nil => exact Or.inl h
  | cons q t ih =>
      rw [insertAll_cons] at h
      rcases ih _ h with h' | h'
      · rcases mem_insertKV _ _ _ _ h' with h'' | h''
        · exact Or.inl h''
        · exact Or.inr (List.mem_cons.mpr (Or.inl h''))
      · exact Or.inr (List.mem_cons.mpr (Or.inr h'))

/-- The shard-splitter assigns every write to the bucket named by its key. -/
theorem shardConsistent_get_sharded_state_updates (write_sets : List WriteSet)
    (su : ShardedStateUpdates)
    (hsu : su ∈ get_sharded_state_updates write_sets) : shardConsistent su := by
  rw [get_sharded_state_updates, List.mem_map] at hsu
  obtain ⟨ws, -, rfl⟩ := hsu
  suffices h : ∀ (l : List (StateKey × WriteOp)) (acc : ShardedStateUpdates),
      shardConsistent acc →
      shardConsistent (l.foldl
        (fun updates p => updateShard updates p.1.get_shard_id
          (fun m => insertKV m p.1 p.2.as_state_value)) acc) by
    exact h ws create_empty_sharded_state_updates
      (fun i p hp => by simp [create_empty_sharded_state_updates] at hp)
  intro l
  induction l with
  | nil => intro acc hacc; exact hacc
  | cons p t ih =>
      intro acc hacc
      refine ih _ (fun j q hq => ?_)
      simp only [updateShard] at hq
      by_cases hj : j = p.1.get_shard_id
      · rw [if_pos hj] at hq
        rcases mem_insertKV _ _ _ _ hq with h' | h'
        · exact hacc j q h'
        · rw [h', hj]
      · rw [if_neg hj] at hq
        exact hacc j q hq

/-- The range-merger preserves shard consistency. -/
theorem shardConsistent_calculate_updates (vec : List ShardedStateUpdates)
    (hvec : ∀ su ∈ vec, shardConsistent su) :
    shardConsistent (calculate_updates vec) := by
  induction vec using List.reverseRecOn with
  | nil => intro i p hp; simp [calculate_updates_nil] at hp
  | append_singleton vs su ih =>
      intro i p hp
      rw [calculate_updates_concat] at hp
      rcases mem_insertAll _ _ _ hp with h' | h'
      · exact ih (fun s hs => hvec s (List.mem_append_left _ hs)) i p h'
      · exact hvec su (by simp) i p h'

/-! ### Concrete fixtures used by witnesses -/

def fixKey0 : StateKey := ⟨0, 1⟩

def fixKey1 : StateKey := ⟨1, 1⟩

def fixVal1 : StateValue := ⟨7, 1⟩

def fixVal2 : StateValue := ⟨8, 2⟩

def fixVec : List ShardedStateUpdates :=
  get_sharded_state_updates
    [[(fixKey0, some fixVal1)], [(fixKey0, some fixVal2)], [(fixKey1, none)]]

/-! ### Claims C5 and C7 -/

/-- C5: the per-transaction sharded updates are merged into exactly two
aggregates — the prefix `[0 ..= last_checkpoint_index]` and the remaining
suffix; with no checkpoint index, the prefix aggregate is the all-empty
sharded map and the whole batch forms the suffix; and within each shard of a
merged aggregate the value recorded for a key is that of the last transaction
(in batch order) that wrote it (stated for batches whose per-transaction
shard maps are duplicate-free, which the shard-splitter guarantees). -/
theorem claim_C5 (vec : List ShardedStateUpdates) (index : Nat)
    (hnd : ∀ su ∈ vec, ∀ i, (keysOf (su i)).Nodup) :
    splitUpdates vec (some index) =
      (calculate_updates (vec.take (index + 1)),
       calculate_updates (vec.drop (index + 1)))
    ∧ splitUpdates vec none =
      (create_empty_sharded_state_updates, calculate_updates vec)
    ∧ ∀ i k, getKV (calculate_updates vec i) k = lastWrittenValue vec i k := by
  refine ⟨rfl, rfl, fun i k => ?_⟩
  exact getKV_calculate_updates vec i k (fun su hsu => hnd su hsu i)

theorem claim_C5_witness :
    splitUpdates fixVec (some 0) =
      (calculate_updates (fixVec.take 1), calculate_updates (fixVec.drop 1))
    ∧ getKV (calculate_updates fixVec fixKey0.get_shard_id) fixKey0 =
      lastWrittenValue fixVec fixKey0.get_shard_id fixKey0 :=
  ⟨(claim_C5 fixVec 0 (by decide)).1,
   (claim_C5 fixVec 0 (by decide)).2.2 fixKey0.get_shard_id fixKey0⟩

/-- C7: every `ShardedStateUpdates` produced by the calculator — each element
of the per-transaction split and both merged aggregates — stores a key `k` in
shard `i` only if `k.get_shard_id = i`. -/
theorem claim_C7 (write_sets : List WriteSet) (last_checkpoint_index : Option Nat) :
    (∀ su ∈ get_sharded_state_updates write_sets, shardConsistent su)
    ∧ shardConsistent
        (splitUpdates (get_sharded_state_updates write_sets)
          last_checkpoint_index).1
    ∧ shardConsistent
        (splitUpdates (get_sharded_state_updates write_sets)
          last_checkpoint_index).2 := by
  have hall : ∀ su ∈ get_sharded_state_updates write_sets, shardConsistent su :=
    fun su hsu => shardConsistent_get_sharded_state_updates _ su hsu
  refine ⟨hall, ?_, ?_⟩ <;> cases last_checkpoint_index
  case refine_1.none =>
    intro i p hp
    simp [splitUpdates, create_empty_sharded_state_updates] at hp
  case refine_1.some index =>
    exact shardConsistent_calculate_updates _
      (fun su hsu => hall su (List.take_subset _ _ hsu))
  case refine_2.none =>
    exact shardConsistent_calculate_updates _ hall
  case refine_2.some index =>
    exact shardConsistent_calculate_updates _
      (fun su hsu => hall su (List.drop_subset _ _ hsu))

/-! ### Usage accounting: specification-side deltas -/

/-- Specification-side per-key usage delta, as the spec states it: deletion of
an existing key contributes `(-1, -(key+old))`, creation of a fresh key
contributes `(+1, key+new)`, an overwrite contributes `(0, new-old)` (and a
deletion of a key recorded as absent contributes `(0, 0)`). -/
def spec_key_delta (old_value : Option StateValue) (k : StateKey)
    (new_value : Option StateValue) : Int × Int :=
  match old_value, new_value with
  | some old, none => (-1, -((k.size + old.size : Nat) : Int))
  | none, some newv => (1, ((k.size + newv.size : Nat) : Int))
  | some old, some newv => (0, (newv.size : Int) - (old.size : Int))
  | none, none => (0, 0)

/-- The pre-execution value recorded for `k` in one shard of the read cache
(`none` when the cache records the key as previously absent). -/
def cached_old_value (cache : ShardCache) (k : StateKey) : Option StateValue :=
  match cacheGet cache k with
  | some pr => pr.2
  | none => none

/-- The entries one shard's usage walk actually accounts: the pre-checkpoint
entries whose key the post-checkpoint shard does not contain, then all
post-checkpoint entries. -/
def walked_entries (before after : ShardUpdates) :
    List (StateKey × Option StateValue) :=
  before.filter (fun e => ! containsKey after e.1) ++ after

def spec_entries_delta (cache : ShardCache)
    (l : List (StateKey × Option StateValue)) : Int × Int :=
  (l.map (fun e => spec_key_delta (cached_old_value cache e.1) e.1 e.2)).sum

/-- Specification-side total usage delta: the sum over the 16 shards of the
per-key deltas of the walked entries. -/
def spec_usage_delta (cache : ShardedStateCache)
    (before after : ShardedStateUpdates) : Int × Int :=
  ((List.finRange 16).map (fun i =>
    spec_entries_delta (cache i) (walked_entries (before i) (after i)))).sum

theorem except_error_bind {α β : Type} (e : CalcErr) (f : α → Except CalcErr β) :
    (Except.error e >>= f) = Except.error e := rfl

theorem except_ok_bind {α β : Type} (a : α) (f : α → Except CalcErr β) :
    (Except.ok a >>= f) = f a := rfl

theorem add_to_delta_ok (k : StateKey) (v : Option StateValue)
    (cache : ShardCache) (acc : Int × Int)
    (pr : Option Nat × Option StateValue) (h : cacheGet cache k = some pr) :
    add_to_delta k v cache acc = .ok (acc + spec_key_delta pr.2 k v) := by
  obtain ⟨ver, old⟩ := pr
  cases old <;> cases v <;>
    (simp only [add_to_delta, h, spec_key_delta]
     refine congrArg Except.ok ?_
     rw [Prod.ext_iff]
     refine ⟨?_, ?_⟩ <;> (simp [sub_eq_add_neg]; try push_cast; try ring))

theorem add_to_delta_missing (k : StateKey) (v : Option StateValue)
    (cache : ShardCache) (acc : Int × Int) (h : cacheGet cache k = none) :
    add_to_delta k v cache acc = .error .missingRead := by
  cases v <;> simp [add_to_delta, h]

theorem foldlM_add_to_delta_ok (cache : ShardCache)
    (l : List (StateKey × Option StateValue)) (acc : Int × Int)
    (h : ∀ e ∈ l, (cacheGet cache e.1).isSome) :
    l.foldlM (fun acc e => add_to_delta e.1 e.2 cache acc) acc =
      .ok (acc + spec_entries_delta cache l) := by
  induction l generalizing acc with
  | nil =>
      simp [spec_entries_delta]
      rfl
  | cons e t ih =>
      obtain ⟨pr, hpr⟩ := Option.isSome_iff_exists.mp (h e (List.mem_cons_self e t))
      rw [List.foldlM_cons, add_to_delta_ok e.1 e.2 cache acc pr hpr,
        except_ok_bind, ih _ (fun e' he' => h e' (List.mem_cons_of_mem _ he'))]
      have hold : cached_old_value cache e.1 = pr.2 := by
        simp [cached_old_value, hpr]
      simp [spec_entries_delta, hold, add_assoc]

theorem foldlM_add_to_delta_error (cache : ShardCache)
    (l : List (StateKey × Option StateValue)) (acc : Int × Int) (er : CalcErr) :
    l.foldlM (fun acc e => add_to_delta e.1 e.2 cache acc) acc = .error er ↔
      (er = .missingRead ∧ ∃ e ∈ l, cacheGet cache e.1 = none) := by
  induction l generalizing acc with
  | nil =>
      constructor
      · intro hh
        exact absurd hh (by rw [List.foldlM_nil]; simp [pure, Except.pure])
      · intro ⟨_, e, he, _⟩
        simp at he
  | cons e t ih =>
      rw [List.foldlM_cons]
      cases hpr : cacheGet cache e.1 with
      | none =>
          rw [add_to_delta_missing e.1 e.2 cache acc hpr, except_error_bind]
          constructor
          · intro hh
            have her : er = CalcErr.missingRead := by
              cases hh
              rfl
            exact ⟨her, e, List.mem_cons_self e t, hpr⟩
          · intro ⟨h1, _⟩
            rw [h1]
      | some pr =>
          rw [add_to_delta_ok e.1 e.2 cache acc pr hpr, except_ok_bind, ih]
          constructor
          · intro ⟨h1, e', he', hnone⟩
            exact ⟨h1, e', List.mem_cons_of_mem _ he', hnone⟩
          · intro ⟨h1, e', he', hnone⟩
            rcases List.mem_cons.mp he' with rfl | he''
            · rw [hpr] at hnone
              cases hnone
            · exact ⟨h1, e', he'', hnone⟩

theorem foldlM_skip (cache : ShardCache) (before after : ShardUpdates)
    (acc : Int × Int) :
    before.foldlM
      (fun acc e =>
        if containsKey after e.1 then pure acc
        else add_to_delta e.1 e.2 cache acc) acc =
    (before.filter (fun e => ! containsKey after e.1)).foldlM
      (fun acc e => add_to_delta e.1 e.2 cache acc) acc := by
  induction before generalizing acc with
  | nil => rfl
  | cons e t ih =>
      rw [List.foldlM_cons]
      cases hc : containsKey after e.1
      · simp only [hc, Bool.false_eq_true, if_false, List.filter_cons, Bool.not_false,
          if_pos, List.foldlM_cons]
        exact bind_congr (fun a => ih a)
      · simp only [hc, if_true, List.filter_cons, Bool.not_true, pure_bind]
        rw [ih]
        simp

theorem shardUsageDelta_ok (cache : ShardCache) (before after : ShardUpdates)
    (h : ∀ e ∈ walked_entries before after, (cacheGet cache e.1).isSome) :
    shardUsageDelta cache before after =
      .ok (spec_entries_delta cache (walked_entries before after)) := by
  have h1 : ∀ e ∈ before.filter (fun e => ! containsKey after e.1),
      (cacheGet cache e.1).isSome :=
    fun e he => h e (List.mem_append_left _ he)
  have h2 : ∀ e ∈ after, (cacheGet cache e.1).isSome :=
    fun e he => h e (List.mem_append_right _ he)
  unfold shardUsageDelta
  rw [foldlM_skip, foldlM_add_to_delta_ok cache _ _ h1]
  simp only []
  rw [foldlM_add_to_delta_ok cache _ _ h2]
  unfold walked_entries spec_entries_delta
  rw [List.map_append, List.sum_append]
  rw [show ((0, 0) : Int × Int) = 0 from rfl, zero_add]

theorem shardUsageDelta_error (cache : ShardCache) (before after : ShardUpdates)
    (er : CalcErr) :
    shardUsageDelta cache before after = .error er ↔
      (er = .missingRead ∧
        ∃ e ∈ walked_entries before after, cacheGet cache e.1 = none) := by
  unfold shardUsageDelta
  rw [foldlM_skip]
  cases hf : (before.filter (fun e => ! containsKey after e.1)).foldlM
      (fun acc e => add_to_delta e.1 e.2 cache acc) ((0 : Int), (0 : Int)) with
  | error e =>
      obtain ⟨he, e', he', hnone⟩ := (foldlM_add_to_delta_error cache _ _ e).mp hf
      simp only []
      constructor
      · intro hh
        cases hh
        exact ⟨he, e', List.mem_append_left _ he', hnone⟩
      · intro ⟨h1, _⟩
        rw [h1, he]
  | ok acc1 =>
      simp only []
      rw [foldlM_add_to_delta_error]
      have hnf : ∀ e ∈ before.filter (fun e => ! containsKey after e.1),
          ¬ cacheGet cache e.1 = none := by
        intro e he hnone
        have : (before.filter (fun e => ! containsKey after e.1)).foldlM
            (fun acc e => add_to_delta e.1 e.2 cache acc) ((0 : Int), (0 : Int)) =
            .error .missingRead :=
          (foldlM_add_to_delta_error cache _ _ _).mpr ⟨rfl, e, he, hnone⟩
        rw [hf] at this
        cases this
      constructor
      · intro ⟨h1, e', he', hnone⟩
        exact ⟨h1, e', List.mem_append_right _ he', hnone⟩
      · intro ⟨h1, e', he', hnone⟩
        rcases List.mem_append.mp he' with hl | hr
        · exact absurd hnone (hnf e' hl)
        · exact ⟨h1, e', hr, hnone⟩

theorem foldlM_usage_step_ok (cache : ShardedStateCache)
    (upd : ShardedStateUpdates × ShardedStateUpdates) (L : List (Fin 16))
    (acc : Int × Int)
    (h : ∀ i ∈ L, ∀ e ∈ walked_entries (upd.1 i) (upd.2 i),
      (cacheGet (cache i) e.1).isSome) :
    L.foldlM (usage_fold_step cache upd) acc =
      .ok (acc + (L.map (fun i =>
        spec_entries_delta (cache i)
          (walked_entries (upd.1 i) (upd.2 i)))).sum) := by
  induction L generalizing acc with
  | nil =>
      simp
      rfl
  | cons i L ih =>
      rw [List.foldlM_cons]
      have hstep : usage_fold_step cache upd acc i =
          .ok (acc + spec_entries_delta (cache i)
            (walked_entries (upd.1 i) (upd.2 i))) := by
        unfold usage_fold_step
        rw [show (cache.shard i) = cache i from rfl,
          shardUsageDelta_ok (cache i) _ _ (h i (List.mem_cons_self i L))]
        rfl
      rw [hstep, except_ok_bind, ih _ (fun j hj => h j (List.mem_cons_of_mem _ hj))]
      rw [List.map_cons, List.sum_cons, add_assoc]

theorem foldlM_usage_step_error (cache : ShardedStateCache)
    (upd : ShardedStateUpdates × ShardedStateUpdates) (L : List (Fin 16))
    (acc : Int × Int) (er : CalcErr) :
    L.foldlM (usage_fold_step cache upd) acc = .error er ↔
      (er = .missingRead ∧ ∃ i ∈ L, ∃ e ∈ walked_entries (upd.1 i) (upd.2 i),
        cacheGet (cache i) e.1 = none) := by
  induction L generalizing acc with
  | nil =>
      constructor
      · intro hh
        exact absurd hh (by rw [List.foldlM_nil]; simp [pure, Except.pure])
      · intro ⟨_, i, hi, _⟩
        simp at hi
  | cons i L ih =>
      rw [List.foldlM_cons]
      cases hs : shardUsageDelta (cache i) (upd.1 i) (upd.2 i) with
      | error e =>
          obtain ⟨he, e', he', hnone⟩ := (shardUsageDelta_error _ _ _ _).mp hs
          have hstep : usage_fold_step cache upd acc i = .error e := by
            unfold usage_fold_step
            rw [show (cache.shard i) = cache i from rfl, hs]
          rw [hstep, except_error_bind]
          constructor
          · intro hh
            cases hh
            exact ⟨he, i, List.mem_cons_self i L, e', he', hnone⟩
          · intro ⟨h1, _⟩
            rw [h1, he]
      | ok d =>
          have hni : ∀ e ∈ walked_entries (upd.1 i) (upd.2 i),
              ¬ cacheGet (cache i) e.1 = none := by
            intro e he hnone
            have : shardUsageDelta (cache i) (upd.1 i) (upd.2 i) =
                .error .missingRead :=
              (shardUsageDelta_error _ _ _ _).mpr ⟨rfl, e, he, hnone⟩
            rw [hs] at this
            cases this
          have hstep : usage_fold_step cache upd acc i =
              .ok (acc.1 + d.1, acc.2 + d.2) := by
            unfold usage_fold_step
            rw [show (cache.shard i) = cache i from rfl, hs]
          rw [hstep, except_ok_bind, ih]
          constructor
          · intro ⟨h1, j, hj, e', he', hnone⟩
            exact ⟨h1, j, List.mem_cons_of_mem _ hj, e', he', hnone⟩
          · intro ⟨h1, j, hj, e', he', hnone⟩
            rcases List.mem_cons.mp hj with rfl | hj'
            · exact absurd hnone (hni e' he')
            · exact ⟨h1, j, hj', e', he', hnone⟩

theorem calculate_usage_untracked (cache : ShardedStateCache)
    (upd : ShardedStateUpdates × ShardedStateUpdates) :
    calculate_usage .Untracked cache upd = .ok .Untracked := rfl

theorem calculate_usage_tracked (items bytes : Nat) (cache : ShardedStateCache)
    (b a : ShardedStateUpdates)
    (h : ∀ i : Fin 16, ∀ e ∈ walked_entries (b i) (a i),
      (cacheGet (cache i) e.1).isSome) :
    calculate_usage (.Tracked items bytes) cache (b, a) =
      .ok (.Tracked
        ((((items : Int) + (spec_usage_delta cache b a).1) % ((2 : Int) ^ 64)).toNat)
        ((((bytes : Int) + (spec_usage_delta cache b a).2) % ((2 : Int) ^ 64)).toNat)) := by
  unfold calculate_usage
  rw [if_neg (by simp [StateStorageUsage.is_untracked])]
  rw [foldlM_usage_step_ok cache (b, a) (List.finRange 16) ((0 : Int), (0 : Int))
    (fun i _ => h i)]
  simp only [StateStorageUsage.new, StateStorageUsage.items, StateStorageUsage.bytes]
  rw [show (((0 : Int), (0 : Int)) : Int × Int) = 0 from rfl, zero_add]
  rfl

theorem calculate_usage_error_iff (items bytes : Nat)
    (cache : ShardedStateCache) (b a : ShardedStateUpdates) (er : CalcErr) :
    calculate_usage (.Tracked items bytes) cache (b, a) = .error er ↔
      (er = .missingRead ∧ ∃ i : Fin 16,
        ∃ e ∈ walked_entries (b i) (a i), cacheGet (cache i) e.1 = none) := by
  unfold calculate_usage
  rw [if_neg (by simp [StateStorageUsage.is_untracked])]
  cases hf : (List.finRange 16).foldlM (usage_fold_step cache (b, a))
      ((0 : Int), (0 : Int)) with
  | error e =>
      obtain ⟨he, i, _, e', he', hnone⟩ := (foldlM_usage_step_error _ _ _ _ _).mp hf
      simp only []
      constructor
      · intro hh
        cases hh
        exact ⟨he, i, e', he', hnone⟩
      · intro ⟨h1, _⟩
        rw [h1, he]
  | ok d =>
      simp only []
      constructor
      · intro hh
        cases hh
      · intro ⟨h1, i, e', he', hnone⟩
        have : (List.finRange 16).foldlM (usage_fold_step cache (b, a))
            ((0 : Int), (0 : Int)) = .error .missingRead :=
          (foldlM_usage_step_error _ _ _ _ _).mpr
            ⟨rfl, i, List.mem_finRange i, e', he', hnone⟩
        rw [hf] at this
        cases this

theorem calculate_impl_ok_iff (p : StateDelta) (sc : StateCache)
    (vec : List ShardedStateUpdates) (lci : Option Nat) (blk : Bool)
    (known : Option (List (Option HashValue))) (out : StateCheckpointOutput) :
    calculate_impl p sc vec lci blk known = .ok out ↔
      ∃ usage state_checkpoint_hashes current_tree,
        sc.frozen_base.smt = p.current
        ∧ (match lci with
            | some index => decide (vec.length ≤ index)
            | none => false) = false
        ∧ calculate_usage p.current.usage sc.sharded_state_cache
            ((splitUpdates vec lci).1, (splitUpdates vec lci).2) = .ok usage
        ∧ reconcile_checkpoint_hashes known vec.length lci
            (latest_checkpoint_of p sc vec lci usage).root_hash =
              .ok state_checkpoint_hashes
        ∧ current_tree_result_of p sc vec lci blk usage = .ok current_tree
        ∧ out = ⟨p, StateDelta.new
            (latest_checkpoint_of p sc vec lci usage).smt
            (latest_checkpoint_version_of p lci) current_tree
            (some (first_version_of p + vec.length - 1))
            (updates_since_of p vec lci),
            lci.map (fun _ => (splitUpdates vec lci).1), vec,
            state_checkpoint_hashes⟩ := by
  constructor
  · intro h
    unfold calculate_impl at h
    by_cases h1 : sc.frozen_base.smt ≠ p.current
    · rw [if_pos h1] at h
      exact Except.noConfusion h
    · rw [if_neg h1] at h
      have hfb : sc.frozen_base.smt = p.current := not_not.mp h1
      cases h2 : (match lci with
          | some index => decide (vec.length ≤ index)
          | none => false)
      · rw [h2] at h
        simp only [Bool.false_eq_true, if_false] at h
        cases h3 : calculate_usage p.current.usage sc.sharded_state_cache
            ((splitUpdates vec lci).1, (splitUpdates vec lci).2) with
        | error e =>
            simp only [h3] at h
            exact Except.noConfusion h
        | ok usage =>
            simp only [h3] at h
            cases h4 : reconcile_checkpoint_hashes known vec.length lci
                (latest_checkpoint_of p sc vec lci usage).root_hash with
            | error e =>
                simp only [h4] at h
                exact Except.noConfusion h
            | ok hashes =>
                simp only [h4] at h
                cases h5 : current_tree_result_of p sc vec lci blk usage with
                | error e =>
                    simp only [h5] at h
                    exact Except.noConfusion h
                | ok ct =>
                    simp only [h5] at h
                    refine ⟨usage, hashes, ct, hfb, rfl, rfl, h4, h5, ?_⟩
                    cases h
                    rfl
      · rw [h2] at h
        simp only [if_true] at h
        exact Except.noConfusion h
  · rintro ⟨usage, hashes, ct, hfb, h2, h3, h4, h5, rfl⟩
    unfold calculate_impl
    rw [if_neg (fun hh => hh hfb), h2]
    simp only [Bool.false_eq_true, if_false, h3, h4, h5]

theorem make_checkpoint_usage (t : FrozenSparseMerkleTree)
    (updates : ShardedStateUpdates) (u : StateStorageUsage) :
    (make_checkpoint t updates u).smt.usage = u := rfl

theorem current_tree_result_usage (p : StateDelta) (sc : StateCache)
    (vec : List ShardedStateUpdates) (lci : Option Nat) (blk : Bool)
    (u : StateStorageUsage) (ct : SparseMerkleTree)
    (h : current_tree_result_of p sc vec lci blk u = .ok ct) :
    ct.usage = u := by
  unfold current_tree_result_of at h
  by_cases h1 : lci = some (vec.length - 1)
  · rw [if_pos h1] at h
    cases h
    rw [h1]
    simp [latest_checkpoint_of, make_checkpoint, SparseMerkleTree.batch_update]
  · rw [if_neg h1] at h
    cases blk with
    | true =>
        rw [if_pos rfl] at h
        exact Except.noConfusion h
    | false =>
        rw [if_neg (by simp)] at h
        cases h
        rfl

theorem calculate_usage_untracked_usage (cache : ShardedStateCache)
    (upd : ShardedStateUpdates × ShardedStateUpdates) (u : StateStorageUsage)
    (h : calculate_usage .Untracked cache upd = .ok u) : u = .Untracked := by
  rw [calculate_usage_untracked] at h
  cases h
  rfl

/-- C6: when the parent's usage is untracked the result's (current tree's)
usage is untracked, and `calculate_usage` returns untracked uniformly in the
read cache and the update aggregates — i.e. without inspecting either. -/
theorem claim_C6 (parent_state : StateDelta) (state_cache : StateCache)
    (vec : List ShardedStateUpdates) (lci : Option Nat) (is_block : Bool)
    (known : Option (List (Option HashValue))) (out : StateCheckpointOutput)
    (hu : parent_state.current.usage = .Untracked)
    (hok : calculate_impl parent_state state_cache vec lci is_block known =
      .ok out) :
    out.result_state.current.usage = .Untracked
    ∧ ∀ (cache : ShardedStateCache)
        (upd : ShardedStateUpdates × ShardedStateUpdates),
        calculate_usage .Untracked cache upd = .ok .Untracked := by
  obtain ⟨usage, hashes, ct, hfb, hb, husage, hrec, hct, hout⟩ :=
    (calculate_impl_ok_iff parent_state state_cache vec lci is_block known
      out).mp hok
  rw [hu] at husage
  have hU : usage = .Untracked :=
    calculate_usage_untracked_usage _ _ usage husage
  refine ⟨?_, fun cache upd => calculate_usage_untracked cache upd⟩
  rw [hout]
  show ct.usage = .Untracked
  rw [current_tree_result_usage parent_state state_cache vec lci is_block
    usage ct hct, hU]

instance : Inhabited StateDelta :=
  ⟨⟨default, none, default, none, fun _ => []⟩⟩

instance : Inhabited StateCheckpointOutput :=
  ⟨⟨default, default, none, [], []⟩⟩

def emptyUntrackedSMT : SparseMerkleTree := ⟨[], .Untracked⟩

def c6Parent : StateDelta :=
  ⟨emptyUntrackedSMT, none, emptyUntrackedSMT, none, fun _ => []⟩

def c6Cache : StateCache :=
  ⟨⟨emptyUntrackedSMT, emptyUntrackedSMT⟩, fun _ => []⟩

def c6Out : StateCheckpointOutput :=
  (calculate_impl c6Parent c6Cache fixVec none false none).toOption.getD default

theorem claim_C6_witness : c6Out.result_state.current.usage = .Untracked :=
  (claim_C6 c6Parent c6Cache fixVec none false none c6Out rfl rfl).1

/-- C4: with no checkpoint in the batch the result `StateDelta` keeps the
parent's base tree and base version and extends the parent's pending updates
with the batch's merged updates per shard (the batch's entries overwriting
the parent's for duplicate keys); with a checkpoint, the pending updates are
exactly the merged updates after the last checkpoint. -/
theorem claim_C4 (parent_state : StateDelta) (state_cache : StateCache)
    (vec : List ShardedStateUpdates) (lci : Option Nat) (is_block : Bool)
    (known : Option (List (Option HashValue))) (out : StateCheckpointOutput)
    (hok : calculate_impl parent_state state_cache vec lci is_block known =
      .ok out) :
    (lci = none →
      out.result_state.base = parent_state.base
      ∧ out.result_state.base_version = parent_state.base_version
      ∧ out.result_state.updates_since_base =
          extend_sharded parent_state.updates_since_base (calculate_updates vec))
    ∧ (∀ index, lci = some index →
        out.result_state.updates_since_base =
          calculate_updates (vec.drop (index + 1)))
    ∧ (∀ (x y : ShardedStateUpdates) (i : Fin 16) (k : StateKey),
        getKV (extend_sharded x y i) k =
          match getKV (y i).reverse k with
          | some v => some v
          | none => getKV (x i) k) := by
  obtain ⟨usage, hashes, ct, hfb, hb, husage, hrec, hct, hout⟩ :=
    (calculate_impl_ok_iff parent_state state_cache vec lci is_block known
      out).mp hok
  refine ⟨?_, ?_, fun x y i k => getKV_insertAll (x i) (y i) k⟩
  · rintro rfl
    rw [hout]
    exact ⟨rfl, rfl, rfl⟩
  · rintro index rfl
    rw [hout]
    rfl

theorem claim_C4_witness :
    c6Out.result_state.base = c6Parent.base
    ∧ c6Out.result_state.base_version = c6Parent.base_version
    ∧ c6Out.result_state.updates_since_base =
        extend_sharded c6Parent.updates_since_base (calculate_updates fixVec) :=
  (claim_C4 c6Parent c6Cache fixVec none false none c6Out rfl).1 rfl

/-- C3: a supplied expected-hash sequence of the wrong length fails with the
hash-count error; at the last checkpoint index a present element must equal
the computed checkpoint root hash (mismatch error otherwise) and an absent
element is filled in with it, every other position passing through unchanged;
and the hash vector returned by `calculate_impl` is exactly the reconciled
one against the computed checkpoint root hash. -/
theorem claim_C3 (parent_state : StateDelta) (state_cache : StateCache)
    (vec : List ShardedStateUpdates) (lci : Option Nat) (is_block : Bool)
    (ks : List (Option HashValue)) (computed : HashValue) (index : Nat)
    (out : StateCheckpointOutput) :
    (ks.length ≠ vec.length →
      reconcile_checkpoint_hashes (some ks) vec.length lci computed =
        .error .hashCountMismatch)
    ∧ (ks.length = vec.length →
        (∀ h, ks.getD index none = some h →
          (h ≠ computed →
            reconcile_checkpoint_hashes (some ks) vec.length (some index)
              computed = .error .checkpointHashMismatch)
          ∧ (h = computed →
            reconcile_checkpoint_hashes (some ks) vec.length (some index)
              computed = .ok ks))
        ∧ (ks.getD index none = none →
            reconcile_checkpoint_hashes (some ks) vec.length (some index)
              computed = .ok (ks.set index (some computed))
            ∧ ∀ j, j ≠ index →
                (ks.set index (some computed)).getD j none = ks.getD j none))
    ∧ (calculate_impl parent_state state_cache vec lci is_block (some ks) =
        .ok out →
      ∃ usage, calculate_usage parent_state.current.usage
          state_cache.sharded_state_cache
          ((splitUpdates vec lci).1, (splitUpdates vec lci).2) = .ok usage
        ∧ reconcile_checkpoint_hashes (some ks) vec.length lci
            (latest_checkpoint_of parent_state state_cache vec lci
              usage).root_hash = .ok out.state_checkpoint_hashes) := by
  refine ⟨?_, ?_, ?_⟩
  · intro hlen
    unfold reconcile_checkpoint_hashes
    rw [if_pos hlen]
  · intro hlen
    constructor
    · intro h hget
      constructor
      · intro hne
        unfold reconcile_checkpoint_hashes
        simp only []
        rw [if_neg (by rw [hlen]; exact fun hh => hh rfl), hget]
        simp only [if_neg hne]
      · intro heq
        unfold reconcile_checkpoint_hashes
        simp only []
        rw [if_neg (by rw [hlen]; exact fun hh => hh rfl), hget]
        simp only [if_pos heq]
    · intro hget
      refine ⟨?_, ?_⟩
      · unfold reconcile_checkpoint_hashes
        simp only []
        rw [if_neg (by rw [hlen]; exact fun hh => hh rfl), hget]
      · intro j hj
        rw [List.getD_eq_getElem?_getD, List.getD_eq_getElem?_getD,
          List.getElem?_set_ne (fun hh => hj hh.symm)]
  · intro hok
    obtain ⟨usage, hashes, ct, hfb, hb, husage, hrec, hct, hout⟩ :=
      (calculate_impl_ok_iff parent_state state_cache vec lci is_block
        (some ks) out).mp hok
    refine ⟨usage, husage, ?_⟩
    rw [hout]
    exact hrec

theorem claim_C3_witness :
    reconcile_checkpoint_hashes (some []) fixVec.length none [] =
      .error .hashCountMismatch
    ∧ reconcile_checkpoint_hashes (some [none, none, none]) fixVec.length
        (some 0) [] = .ok ([none, none, none].set 0 (some [])) :=
  ⟨(claim_C3 c6Parent c6Cache fixVec none false [] [] 0 default).1 (by decide),
   ((((claim_C3 c6Parent c6Cache fixVec (some 0) false [none, none, none] []
      0 default).2.1) (by decide)).2 (by decide)).1⟩

theorem getD_replicate_none (num index : Nat) :
    (List.replicate num (none : Option HashValue)).getD index none = none := by
  rw [List.getD_eq_getElem?_getD, List.getElem?_replicate]
  split <;> rfl

theorem reconcile_none (num : Nat) (lci : Option Nat) (computed : HashValue) :
    reconcile_checkpoint_hashes none num lci computed =
      .ok (match lci with
        | none => List.replicate num none
        | some index => (List.replicate num none).set index (some computed)) := by
  unfold reconcile_checkpoint_hashes
  simp only []
  rw [if_neg (by simp)]
  cases lci with
  | none => rfl
  | some index =>
      simp only []
      rw [getD_replicate_none]

theorem current_tree_result_nonblock_ok (p : StateDelta) (sc : StateCache)
    (vec : List ShardedStateUpdates) (lci : Option Nat) (u : StateStorageUsage) :
    ∃ ct, current_tree_result_of p sc vec lci false u = .ok ct := by
  unfold current_tree_result_of
  by_cases h1 : lci = some (vec.length - 1)
  · rw [if_pos h1]
    exact ⟨_, rfl⟩
  · rw [if_neg h1]
    simp only [Bool.false_eq_true, if_false]
    exact ⟨_, rfl⟩

/-- C10: `calculate_for_write_sets_after_snapshot` always runs with
`is_block = false` and no caller-supplied expected hashes, so it can only
fail on the frozen-base assertion, an out-of-range checkpoint index, or a
missing read — never with the invalid-block or hash-mismatch/hash-count
errors; on success its checkpoint-hash vector has the batch's length, is
`none` everywhere except at the last checkpoint index, and holds the computed
checkpoint root hash there. -/
theorem claim_C10 (parent_state : StateDelta) (state_cache : StateCache)
    (lci : Option Nat) (write_sets : List WriteSet) :
    (∀ e, calculate_for_write_sets_after_snapshot parent_state state_cache lci
        write_sets = .error e →
      e = .frozenBaseMismatch ∨ e = .indexOutOfBounds ∨ e = .missingRead)
    ∧ (∀ out, calculate_for_write_sets_after_snapshot parent_state state_cache
        lci write_sets = .ok out →
      out.state_checkpoint_hashes.length = write_sets.length
      ∧ (∀ j, some j ≠ lci →
          out.state_checkpoint_hashes.getD j none = none)
      ∧ (∀ index, lci = some index → ∃ usage,
          calculate_usage parent_state.current.usage
            state_cache.sharded_state_cache
            ((splitUpdates (get_sharded_state_updates write_sets) lci).1,
             (splitUpdates (get_sharded_state_updates write_sets) lci).2) =
            .ok usage
          ∧ out.state_checkpoint_hashes.getD index none =
              some (latest_checkpoint_of parent_state state_cache
                (get_sharded_state_updates write_sets) lci usage).root_hash)) := by
  have hlen : (get_sharded_state_updates write_sets).length =
      write_sets.length := by
    unfold get_sharded_state_updates
    exact List.length_map _ _
  constructor
  · intro e h
    unfold calculate_for_write_sets_after_snapshot at h
    unfold calculate_impl at h
    by_cases h1 : state_cache.frozen_base.smt ≠ parent_state.current
    · rw [if_pos h1] at h
      exact Or.inl (Except.error.inj h).symm
    · rw [if_neg h1] at h
      cases h2 : (match lci with
          | some index =>
              decide ((get_sharded_state_updates write_sets).length ≤ index)
          | none => false)
      · rw [h2] at h
        simp only [Bool.false_eq_true, if_false] at h
        cases h3 : calculate_usage parent_state.current.usage
            state_cache.sharded_state_cache
            ((splitUpdates (get_sharded_state_updates write_sets) lci).1,
             (splitUpdates (get_sharded_state_updates write_sets) lci).2) with
        | error e' =>
            simp only [h3] at h
            have he : e' = e := Except.error.inj h
            cases hu : parent_state.current.usage with
            | Untracked =>
                rw [hu, calculate_usage_untracked] at h3
                exact Except.noConfusion h3
            | Tracked items bytes =>
                rw [hu] at h3
                obtain ⟨hm, -⟩ :=
                  (calculate_usage_error_iff items bytes _ _ _ e').mp h3
                exact Or.inr (Or.inr (he ▸ hm ▸ rfl))
        | ok usage =>
            simp only [h3] at h
            rw [reconcile_none] at h
            obtain ⟨ct, hct⟩ := current_tree_result_nonblock_ok parent_state
              state_cache (get_sharded_state_updates write_sets) lci usage
            simp only [hct] at h
            exact Except.noConfusion h
      · rw [h2] at h
        simp only [if_true] at h
        exact Or.inr (Or.inl (Except.error.inj h).symm)
  · intro out hok
    obtain ⟨usage, hashes, ct, hfb, hb, husage, hrec, hct, hout⟩ :=
      (calculate_impl_ok_iff parent_state state_cache
        (get_sharded_state_updates write_sets) lci false none out).mp hok
    have hsel : out.state_checkpoint_hashes = hashes := by rw [hout]
    cases lci with
    | none =>
        have hrec' := reconcile_none
          (get_sharded_state_updates write_sets).length none
          (latest_checkpoint_of parent_state state_cache
            (get_sharded_state_updates write_sets) none usage).root_hash
        have hhashes : hashes = List.replicate
            (get_sharded_state_updates write_sets).length none :=
          Except.ok.inj (hrec.symm.trans hrec')
        refine ⟨?_, ?_, ?_⟩
        · rw [hsel, hhashes, List.length_replicate, hlen]
        · intro j hj
          rw [hsel, hhashes]
          exact getD_replicate_none _ _
        · intro index hlci
          exact Option.noConfusion hlci
    | some index0 =>
        have hrec' := reconcile_none
          (get_sharded_state_updates write_sets).length (some index0)
          (latest_checkpoint_of parent_state state_cache
            (get_sharded_state_updates write_sets) (some index0) usage).root_hash
        have hhashes : hashes = (List.replicate
            (get_sharded_state_updates write_sets).length none).set index0
            (some (latest_checkpoint_of parent_state state_cache
              (get_sharded_state_updates write_sets) (some index0)
              usage).root_hash) :=
          Except.ok.inj (hrec.symm.trans hrec')
        have hidx : index0 < (get_sharded_state_updates write_sets).length := by
          simpa using Nat.lt_of_not_le (by simpa using hb)
        refine ⟨?_, ?_, ?_⟩
        · rw [hsel, hhashes, List.length_set, List.length_replicate, hlen]
        · intro j hj
          have hji : j ≠ index0 := fun hh => hj (by rw [hh])
          rw [hsel, hhashes, List.getD_eq_getElem?_getD,
            List.getElem?_set_ne hji.symm, ← List.getD_eq_getElem?_getD]
          exact getD_replicate_none _ _
        · intro index hlci
          have hii : index = index0 := (Option.some.inj hlci).symm
          subst hii
          refine ⟨usage, husage, ?_⟩
          rw [hsel, hhashes, List.getD_eq_getElem?_getD,
            List.getElem?_set_self (by simpa [List.length_replicate] using hidx)]
          rfl

def c3SMT : SparseMerkleTree := ⟨[], .Tracked 0 0⟩

def c3Parent : StateDelta := ⟨c3SMT, none, c3SMT, none, fun _ => []⟩

def c3Cache : StateCache :=
  ⟨⟨c3SMT, c3SMT⟩,
   fun i => if i = (0 : Fin 16) then [(fixKey0, (none, none))] else []⟩

def c10WS : List WriteSet := [[(fixKey0, some fixVal1)]]

def c10Out : StateCheckpointOutput :=
  (calculate_for_write_sets_after_snapshot c3Parent c3Cache (some 0)
    c10WS).toOption.getD default

theorem claim_C10_witness :
    c10Out.state_checkpoint_hashes.length = c10WS.length
    ∧ c10Out.state_checkpoint_hashes.getD 1 none = none :=
  ⟨((claim_C10 c3Parent c3Cache (some 0) c10WS).2 c10Out rfl).1,
   ((claim_C10 c3Parent c3Cache (some 0) c10WS).2 c10Out rfl).2.1 1 (by decide)⟩

/-- The four block-structure violations of the spec: an empty batch, a parent
that is not a checkpoint, a parent with pending updates, or a checkpoint
predicate holding at an interior position / failing at the last position. -/
def blockInputViolation (base : StateDelta)
    (to_commit : List TransactionWithOutput) : Prop :=
  to_commit = []
  ∨ base.base_version ≠ base.current_version
  ∨ (∃ i : Fin 16, base.updates_since_base i ≠ [])
  ∨ (∃ p ∈ to_commit.enum,
      (p.1 ≠ to_commit.length - 1 ∧ need_checkpoint p.2 = true)
      ∨ (p.1 = to_commit.length - 1 ∧ need_checkpoint p.2 = false))

theorem validate_error_isInvalidBlock (base : StateDelta)
    (to_commit : List TransactionWithOutput) (e : CalcErr)
    (h : validate_input_for_block base to_commit = .error e) :
    e.isInvalidBlock = true := by
  unfold validate_input_for_block at h
  by_cases h1 : to_commit.length = 0
  · rw [if_pos h1] at h
    cases h
    rfl
  · rw [if_neg h1] at h
    by_cases h2 : base.base_version ≠ base.current_version
    · rw [if_pos h2] at h
      cases h
      rfl
    · rw [if_neg h2] at h
      by_cases h3 : (List.finRange 16).all
          (fun i => (base.updates_since_base i).isEmpty) = true
      · rw [if_neg (not_not_intro h3)] at h
        by_cases h4 : to_commit.enum.all
            (fun p => Bool.xor (need_checkpoint p.2)
              (p.1 != to_commit.length - 1)) = true
        · rw [if_neg (not_not_intro h4)] at h
          exact Except.noConfusion h
        · rw [if_pos h4] at h
          cases h
          rfl
      · rw [if_pos h3] at h
        cases h
        rfl

theorem validate_ok_iff (base : StateDelta)
    (to_commit : List TransactionWithOutput) :
    validate_input_for_block base to_commit = .ok () ↔
      ¬ blockInputViolation base to_commit := by
  unfold validate_input_for_block blockInputViolation
  by_cases h1 : to_commit.length = 0
  · rw [if_pos h1]
    simp [List.length_eq_zero.mp h1]
  · rw [if_neg h1]
    by_cases h2 : base.base_version ≠ base.current_version
    · rw [if_pos h2]
      constructor
      · intro hh
        exact Except.noConfusion hh
      · intro hnv
        exact absurd (Or.inr (Or.inl h2)) hnv
    · rw [if_neg h2]
      by_cases h3 : (List.finRange 16).all
          (fun i => (base.updates_since_base i).isEmpty) = true
      · rw [if_neg (not_not_intro h3)]
        by_cases h4 : to_commit.enum.all
            (fun p => Bool.xor (need_checkpoint p.2)
              (p.1 != to_commit.length - 1)) = true
        · rw [if_neg (not_not_intro h4)]
          constructor
          · intro _ hviol
            rcases hviol with hv | hv | hv | hv
            · exact h1 (by rw [hv]; rfl)
            · exact h2 hv
            · obtain ⟨i, hi⟩ := hv
              have := (List.all_eq_true.mp h3) i (List.mem_finRange i)
              exact hi (List.isEmpty_iff.mp (by simpa using this))
            · obtain ⟨p, hp, hcase⟩ := hv
              have hx := (List.all_eq_true.mp h4) p hp
              rcases hcase with ⟨hne, hcp⟩ | ⟨heq, hcp⟩
              · rw [hcp] at hx
                have hxx : (p.1 != to_commit.length - 1) = false := by
                  simpa using hx
                exact hne (by simpa using hxx)
              · rw [hcp] at hx
                have hxx : (p.1 != to_commit.length - 1) = true := by
                  simpa using hx
                rw [heq] at hxx
                simp at hxx
          · intro _
            rfl
        · rw [if_pos h4]
          constructor
          · intro hh
            exact Except.noConfusion hh
          · intro hnv
            exfalso
            apply hnv
            rw [List.all_eq_true] at h4
            push_neg at h4
            obtain ⟨p, hp, hxor⟩ := h4
            refine Or.inr (Or.inr (Or.inr ⟨p, hp, ?_⟩))
            cases hcp : need_checkpoint p.2 with
            | false =>
                right
                refine ⟨?_, rfl⟩
                rw [hcp] at hxor
                simp only [Bool.false_xor] at hxor
                simpa using hxor
            | true =>
                left
                refine ⟨?_, rfl⟩
                rw [hcp] at hxor
                simp only [Bool.true_xor] at hxor
                simpa using hxor
      · rw [if_pos h3]
        constructor
        · intro hh
          exact Except.noConfusion hh
        · intro hnv
          exfalso
          apply hnv
          rw [List.all_eq_true] at h3
          push_neg at h3
          obtain ⟨i, hi, hne⟩ := h3
          exact Or.inr (Or.inr (Or.inl ⟨i, by simpa using hne⟩))

/-- C2: with `is_block` set, `calculate_for_transactions` fails with an
*InvalidBlock*-class error whenever the batch is empty, the parent's base and
current versions differ, some shard of the parent's pending updates is
non-empty, an interior transaction satisfies the checkpoint predicate, or the
last transaction does not; with none of these, block validation passes. -/
theorem claim_C2 (execution_output : ExecutionOutput)
    (parent_state : StateDelta) (known : Option (List (Option HashValue)))
    (hblk : execution_output.is_block = true) :
    (validate_input_for_block parent_state execution_output.to_commit =
        .ok () ↔ ¬ blockInputViolation parent_state execution_output.to_commit)
    ∧ (blockInputViolation parent_state execution_output.to_commit →
        ∃ e, e.isInvalidBlock = true ∧
          calculate_for_transactions execution_output parent_state known =
            .error e) := by
  refine ⟨validate_ok_iff _ _, fun hviol => ?_⟩
  cases hv : validate_input_for_block parent_state
      execution_output.to_commit with
  | ok u =>
      cases u
      exact absurd hviol ((validate_ok_iff _ _).mp hv)
  | error e =>
      refine ⟨e, validate_error_isInvalidBlock _ _ e hv, ?_⟩
      unfold calculate_for_transactions
      rw [hblk]
      simp only [if_true, hv]

def c2EO : ExecutionOutput := ⟨true, [], c3Cache⟩

theorem claim_C2_witness :
    validate_input_for_block c3Parent c2EO.to_commit = .ok () ↔
      ¬ blockInputViolation c3Parent c2EO.to_commit :=
  (claim_C2 c2EO c3Parent none rfl).1

/-- C1: for a tracked parent usage, `calculate_usage` returns the parent
usage plus the signed sum over all written keys of the per-key delta of
`spec_key_delta` (deletion `(-1, -(key+old))`, creation `(+1, key+new)`,
overwrite `(0, new-old)`), where a pre-checkpoint entry is skipped exactly
when the post-checkpoint aggregate also contains its key; stated under the
hypotheses that every walked key is in the read cache, that the aggregates
are shard-consistent and duplicate-free (as the calculator produces them),
and that the sums do not underflow or overflow the `usize` cast. -/
theorem claim_C1 (items bytes : Nat) (cache : ShardedStateCache)
    (b a : ShardedStateUpdates)
    (hcached : ∀ i : Fin 16, ∀ e ∈ walked_entries (b i) (a i),
      (cacheGet (cache i) e.1).isSome)
    (hshard : shardConsistent b)
    (hndb : ∀ i : Fin 16, (keysOf (b i)).Nodup)
    (hnda : ∀ i : Fin 16, (keysOf (a i)).Nodup)
    (hi0 : 0 ≤ (items : Int) + (spec_usage_delta cache b a).1)
    (hi1 : (items : Int) + (spec_usage_delta cache b a).1 < 2 ^ 64)
    (hb0 : 0 ≤ (bytes : Int) + (spec_usage_delta cache b a).2)
    (hb1 : (bytes : Int) + (spec_usage_delta cache b a).2 < 2 ^ 64) :
    calculate_usage (.Tracked items bytes) cache (b, a) =
      .ok (.Tracked (((items : Int) + (spec_usage_delta cache b a).1).toNat)
                    (((bytes : Int) + (spec_usage_delta cache b a).2).toNat))
    ∧ (∀ i : Fin 16, walked_entries (b i) (a i) =
        (b i).filter (fun e => ! a.contains_key e.1) ++ a i)
    ∧ (∀ i : Fin 16, (keysOf (walked_entries (b i) (a i))).Nodup) := by
  refine ⟨?_, ?_, ?_⟩
  · rw [calculate_usage_tracked items bytes cache b a hcached,
      Int.emod_eq_of_lt hi0 hi1, Int.emod_eq_of_lt hb0 hb1]
  · intro i
    unfold walked_entries
    congr 1
    apply List.filter_congr
    intro e he
    unfold ShardedStateUpdates.contains_key
    rw [hshard i e he]
  · intro i
    unfold walked_entries keysOf
    rw [List.map_append, List.nodup_append]
    refine ⟨List.Nodup.sublist (List.Sublist.map _
      (List.filter_sublist (b i))) (hndb i), hnda i, ?_⟩
    intro k hk hk'
    obtain ⟨e, he, rfl⟩ := List.mem_map.mp hk
    have hpred := List.of_mem_filter he
    have hcont : containsKey (a i) e.1 = false := by
      simpa using hpred
    rw [containsKey_eq_isSome_getKV] at hcont
    have : getKV (a i) e.1 = none := by
      cases hg : getKV (a i) e.1
      · rfl
      · rw [hg] at hcont
        cases hcont
    exact (getKV_eq_none_iff (a i) e.1).mp this (by simpa [keysOf] using hk')

def key16 : StateKey := ⟨16, 1⟩

def c1Cache : ShardedStateCache := fun i =>
  if i = (0 : Fin 16) then [(fixKey0, (none, none)), (key16, (none, some fixVal1))]
  else if i = (1 : Fin 16) then [(fixKey1, (none, some fixVal2))] else []

def c1Before : ShardedStateUpdates := fun i =>
  if i = (0 : Fin 16) then [(fixKey0, some fixVal1)]
  else if i = (1 : Fin 16) then [(fixKey1, some fixVal1)] else []

def c1After : ShardedStateUpdates := fun i =>
  if i = (0 : Fin 16) then [(key16, some fixVal2)]
  else if i = (1 : Fin 16) then [(fixKey1, none)] else []

theorem claim_C1_witness :
    calculate_usage (.Tracked 5 10) c1Cache (c1Before, c1After) =
      .ok (.Tracked
        (((5 : Int) + (spec_usage_delta c1Cache c1Before c1After).1).toNat)
        (((10 : Int) + (spec_usage_delta c1Cache c1Before c1After).2).toNat)) :=
  (claim_C1 5 10 c1Cache c1Before c1After (by decide) (by decide) (by decide)
    (by decide) (by decide) (by decide) (by decide) (by decide)).1

theorem bound_check_false (lci : Option Nat) (n : Nat) :
    (∀ index, lci = some index → index < n) →
    (match lci with
      | some index => decide (n ≤ index)
      | none => false) = false := by
  cases lci with
  | none => exact fun _ => rfl
  | some index =>
      intro h
      exact decide_eq_false (by have := h index rfl; omega)

/-- C8: when usage is tracked and some key counted in the usage walk is
absent from the pre-execution read cache, `calculate_usage` fails with the
missing-read error and `calculate_impl` surfaces exactly that error to the
caller (so no partial result is returned). -/
theorem claim_C8 (parent_state : StateDelta) (state_cache : StateCache)
    (vec : List ShardedStateUpdates) (lci : Option Nat) (is_block : Bool)
    (known : Option (List (Option HashValue))) (items bytes : Nat)
    (hu : parent_state.current.usage = .Tracked items bytes)
    (hfb : state_cache.frozen_base.smt = parent_state.current)
    (hbound : ∀ index, lci = some index → index < vec.length)
    (hmiss : ∃ i : Fin 16, ∃ e ∈ walked_entries ((splitUpdates vec lci).1 i)
        ((splitUpdates vec lci).2 i),
      cacheGet (state_cache.sharded_state_cache i) e.1 = none) :
    calculate_usage parent_state.current.usage state_cache.sharded_state_cache
        ((splitUpdates vec lci).1, (splitUpdates vec lci).2) =
      .error .missingRead
    ∧ calculate_impl parent_state state_cache vec lci is_block known =
        .error .missingRead := by
  have husage : calculate_usage parent_state.current.usage
      state_cache.sharded_state_cache
      ((splitUpdates vec lci).1, (splitUpdates vec lci).2) =
      .error .missingRead := by
    rw [hu]
    exact (calculate_usage_error_iff items bytes _ _ _ _).mpr ⟨rfl, hmiss⟩
  refine ⟨husage, ?_⟩
  unfold calculate_impl
  rw [if_neg (fun hh => hh hfb), bound_check_false lci vec.length hbound]
  simp only [Bool.false_eq_true, if_false, husage]

def c8SC : StateCache := ⟨⟨c3SMT, c3SMT⟩, fun _ => []⟩

def c3Vec : List ShardedStateUpdates :=
  get_sharded_state_updates [[(fixKey0, some fixVal1)]]

theorem claim_C8_witness :
    calculate_impl c3Parent c8SC c3Vec none false none =
      .error .missingRead :=
  (claim_C8 c3Parent c8SC c3Vec none false none 0 0 rfl rfl
    (fun index h => Option.noConfusion h) (by decide)).2

def c9After : ShardedStateUpdates := fun i =>
  if i = (1 : Fin 16) then [(fixKey1, none)] else []

def c9Cache : ShardedStateCache := fun i =>
  if i = (1 : Fin 16) then [(fixKey1, (none, some fixVal2))] else []

/-- C9 counterexample: deleting an existing key from a parent whose tracked
usage is `(0, 0)` makes both signed sums negative, and `calculate_usage`
neither panics nor saturates: it returns the sums wrapped modulo 2^64
(items = 2^64 - 1, bytes = 2^64 - 3). -/
theorem claim_C9_counterexample :
    calculate_usage (.Tracked 0 0) c9Cache
        (create_empty_sharded_state_updates, c9After) =
      .ok (.Tracked (2 ^ 64 - 1) (2 ^ 64 - 3)) := by
  rfl

/-- C9 amended: when `old_usage.items + items_delta` or
`old_usage.bytes + bytes_delta` is negative (each sum within `i64` range),
`calculate_usage` neither panics nor saturates: it returns both sums reduced
modulo 2^64 by the `as usize` casts, and whichever sum is negative comes out
wrapped, i.e. equal to `2^64 + sum`. -/
theorem claim_C9_amended (items bytes : Nat) (cache : ShardedStateCache)
    (b a : ShardedStateUpdates)
    (hcached : ∀ i : Fin 16, ∀ e ∈ walked_entries (b i) (a i),
      (cacheGet (cache i) e.1).isSome)
    (hiLow : -(2 ^ 64) ≤ (items : Int) + (spec_usage_delta cache b a).1)
    (hbLow : -(2 ^ 64) ≤ (bytes : Int) + (spec_usage_delta cache b a).2)
    (hneg : (items : Int) + (spec_usage_delta cache b a).1 < 0
      ∨ (bytes : Int) + (spec_usage_delta cache b a).2 < 0) :
    calculate_usage (.Tracked items bytes) cache (b, a) =
      .ok (.Tracked
        ((((items : Int) + (spec_usage_delta cache b a).1) % ((2 : Int) ^ 64)).toNat)
        ((((bytes : Int) + (spec_usage_delta cache b a).2) % ((2 : Int) ^ 64)).toNat))
    ∧ ((items : Int) + (spec_usage_delta cache b a).1 < 0 →
        ((items : Int) + (spec_usage_delta cache b a).1) % ((2 : Int) ^ 64) =
          (2 : Int) ^ 64 + ((items : Int) + (spec_usage_delta cache b a).1))
    ∧ ((bytes : Int) + (spec_usage_delta cache b a).2 < 0 →
        ((bytes : Int) + (spec_usage_delta cache b a).2) % ((2 : Int) ^ 64) =
          (2 : Int) ^ 64 + ((bytes : Int) + (spec_usage_delta cache b a).2)) := by
  have hmod : ∀ x : Int, -(2 ^ 64) ≤ x → x < 0 →
      x % (2 : Int) ^ 64 = (2 : Int) ^ 64 + x := by
    intro x h1 h2
    calc x % (2 : Int) ^ 64
        = (x + 2 ^ 64) % (2 : Int) ^ 64 := (Int.add_emod_self).symm
      _ = x + 2 ^ 64 :=
          Int.emod_eq_of_lt (by linarith) (by linarith)
      _ = (2 : Int) ^ 64 + x := add_comm _ _
  exact ⟨calculate_usage_tracked items bytes cache b a hcached,
    fun hiNeg => hmod _ hiLow hiNeg, fun hbNeg => hmod _ hbLow hbNeg⟩

theorem claim_C9_witness :
    calculate_usage (.Tracked 0 100) c9Cache
        (create_empty_sharded_state_updates, c9After) =
      .ok (.Tracked
        ((((0 : Int) + (spec_usage_delta c9Cache
          create_empty_sharded_state_updates c9After).1) % ((2 : Int) ^ 64)).toNat)
        ((((100 : Int) + (spec_usage_delta c9Cache
          create_empty_sharded_state_updates c9After).2) % ((2 : Int) ^ 64)).toNat))
    ∧ ((0 : Int) + (spec_usage_delta c9Cache
          create_empty_sharded_state_updates c9After).1) % ((2 : Int) ^ 64) =
        (2 : Int) ^ 64 + ((0 : Int) + (spec_usage_delta c9Cache
          create_empty_sharded_state_updates c9After).1) :=
  ⟨(claim_C9_amended 0 100 c9Cache create_empty_sharded_state_updates c9After
      (by decide) (by decide) (by decide) (Or.inl (by decide))).1,
   (claim_C9_amended 0 100 c9Cache create_empty_sharded_state_updates c9After
      (by decide) (by decide) (by decide) (Or.inl (by decide))).2.1 (by decide)⟩
